import Mathlib

/-!
Verification development for the Drishti voice-conversation pipeline
(an Express server exposing transcribe / chat / tts routes together with a
browser client holding the state machine, the TTS playback queue, the
voice-activity detector and the conversation history).

The definitions below are shallow embeddings of the JavaScript source:

* `AudioQueueManager` together with `enqueue`, `tryPlayNext`,
  `markAllEnqueued`, `checkCompletion`, `waitForCompletion` and `clear`
  embeds the playback scheduler class of the client.  The JS `Map` keyed by
  sentence index is embedded as an association list with `alookup`,
  `aerase` and `aset`; `aset` removes the stale binding before prepending,
  which matches `Map.set` at the level of `Map.get`.  `Map.delete` removes
  the unique binding of the key; `aerase` removes every binding of the key,
  which agrees with it because keys are never duplicated.
* The recursive `tryPlayNext` of the source terminates because every
  recursive call first deletes the entry at the cursor.  The embedding
  makes the same recursion structural on a fuel argument initialised with
  the queue length, which bounds the number of iterations for that reason.
* Times and durations (`audioContext.currentTime`, `buffer.duration`,
  `scheduledEndTime`, the fixed lead `0.02 = 1/50`) are rationals.
-/

/-- Lookup in an association list keyed by `Nat`, embedding `Map.get`. -/
def alookup {α : Type} : List (Nat × α) → Nat → Option α
  | [], _ => none
  | p :: rest, i => if p.1 = i then some p.2 else alookup rest i

/-- Removal from an association list, embedding `Map.delete`. -/
def aerase {α : Type} : List (Nat × α) → Nat → List (Nat × α)
  | [], _ => []
  | p :: rest, i => if p.1 = i then aerase rest i else p :: aerase rest i

/-- Insertion into an association list, embedding `Map.set`. -/
def aset {α : Type} (l : List (Nat × α)) (i : Nat) (v : α) : List (Nat × α) :=
  (i, v) :: aerase l i

theorem alookup_aerase {α : Type} (l : List (Nat × α)) (i j : Nat) :
    alookup (aerase l i) j = if j = i then none else alookup l j := by
  induction l with
  | nil => simp [aerase, alookup]
  | cons p rest ih =>
    by_cases hp : p.1 = i
    · simp only [aerase, if_pos hp, ih]
      by_cases hj : j = i
      · rw [if_pos hj, if_pos hj]
      · have hpj : ¬p.1 = j := by omega
        rw [if_neg hj, if_neg hj]
        simp only [alookup, if_neg hpj]
    · simp only [aerase, if_neg hp, alookup]
      by_cases hpj : p.1 = j
      · have hj : ¬j = i := by omega
        rw [if_pos hpj, if_neg hj]
        simp only [alookup, if_pos hpj]
      · rw [if_neg hpj, ih]
        by_cases hj : j = i
        · rw [if_pos hj, if_pos hj]
        · rw [if_neg hj, if_neg hj]
          simp only [alookup, if_neg hpj]

theorem alookup_aset {α : Type} (l : List (Nat × α)) (i j : Nat) (v : α) :
    alookup (aset l i v) j = if j = i then some v else alookup l j := by
  by_cases hj : j = i
  · simp only [aset, alookup, if_pos (hj.symm), if_pos hj]
  · have hij : ¬i = j := by omega
    simp only [aset, alookup, if_neg hij, alookup_aerase, if_neg hj]

theorem aerase_length_lt {α : Type} (l : List (Nat × α)) (i : Nat) (d : α)
    (h : alookup l i = some d) : (aerase l i).length < l.length := by
  induction l with
  | nil => simp [alookup] at h
  | cons p rest ih =>
    by_cases hp : p.1 = i
    · simp only [aerase, if_pos hp, List.length_cons]
      calc (aerase rest i).length ≤ rest.length := by
            clear h ih
            induction rest with
            | nil => simp [aerase]
            | cons q tl ihq =>
              by_cases hq : q.1 = i
              · simp only [aerase, if_pos hq, List.length_cons]
                omega
              · simp only [aerase, if_neg hq, List.length_cons]
                omega
        _ < rest.length + 1 := by omega
    · simp only [alookup, if_neg hp] at h
      simp only [aerase, if_neg hp, List.length_cons]
      exact Nat.succ_lt_succ (ih h)

/-- Record of one `source.start(startTime)` call made by the scheduler:
the sentence index of the buffer, its start time, its duration and the
scheduled end time `startTime + buffer.duration`. -/
structure StartEv where
  idx : Nat
  start : ℚ
  dur : ℚ
  endT : ℚ
deriving DecidableEq

/-- State of the `AudioQueueManager` class of the client. -/
structure AudioQueueManager where
  queue : List (Nat × ℚ)
  nextPlayIndex : Nat
  isPlaying : Bool
  scheduledEndTime : ℚ
  allEnqueued : Bool
  totalExpected : Int
  hasWaiter : Bool
deriving DecidableEq

namespace AudioQueueManager

/-- Constructor state of `AudioQueueManager` (`totalExpected = -1`,
`completionResolve = null` embedded as `hasWaiter = false`). -/
def initial : AudioQueueManager :=
  { queue := []
    nextPlayIndex := 0
    isPlaying := false
    scheduledEndTime := 0
    allEnqueued := false
    totalExpected := -1
    hasWaiter := false }

/-- Mutations performed by one iteration of `tryPlayNext` on a buffer of
duration `d` found at the cursor: delete the entry, advance the scheduled
end time by the started duration, advance the cursor, mark playing. -/
def stepState (t d : ℚ) (s : AudioQueueManager) : AudioQueueManager :=
  { s with
    queue := aerase s.queue s.nextPlayIndex
    scheduledEndTime := max (t + 1 / 50) s.scheduledEndTime + d
    nextPlayIndex := s.nextPlayIndex + 1
    isPlaying := true }

/-- Body of `tryPlayNext`, structural on fuel.  Each iteration of the JS
recursion deletes the entry at `nextPlayIndex` before recursing, so the
queue length at entry bounds the number of iterations. -/
def tryPlayNextGo (t : ℚ) : Nat → AudioQueueManager →
    AudioQueueManager × List StartEv
  | 0, s => (s, [])
  | fuel + 1, s =>
    match alookup s.queue s.nextPlayIndex with
    | none => (s, [])
    | some d =>
      let st := max (t + 1 / 50) s.scheduledEndTime
      let r := tryPlayNextGo t fuel (stepState t d s)
      (r.1, ⟨s.nextPlayIndex, st, d, st + d⟩ :: r.2)

/-- The `tryPlayNext` method.  `t` is the value of
`audioContext.currentTime` while this synchronous chain runs. -/
def tryPlayNext (t : ℚ) (s : AudioQueueManager) :
    AudioQueueManager × List StartEv :=
  tryPlayNextGo t s.queue.length s

/-- The `enqueue(index, audioBuffer)` method: store the buffer under its
index, then `tryPlayNext`. -/
def enqueue (t : ℚ) (i : Nat) (d : ℚ) (s : AudioQueueManager) :
    AudioQueueManager × List StartEv :=
  tryPlayNext t { s with queue := aset s.queue i d }

/-- The `checkCompletion` method; the returned flag records whether the
pending `completionResolve` was called. -/
def checkCompletion (s : AudioQueueManager) : AudioQueueManager × Bool :=
  if s.allEnqueued = true ∧ s.totalExpected ≤ (s.nextPlayIndex : Int) ∧
      s.isPlaying = false then
    if s.hasWaiter then ({ s with hasWaiter := false }, true) else (s, false)
  else (s, false)

/-- The `markAllEnqueued(total)` method. -/
def markAllEnqueued (total : Int) (s : AudioQueueManager) :
    AudioQueueManager × Bool :=
  checkCompletion { s with allEnqueued := true, totalExpected := total }

/-- The `source.onended` handler installed by `tryPlayNext`: when the queue
does not hold the cursor, mark not playing and re-check completion; in
either case call `tryPlayNext` again. -/
def sourceEnded (t : ℚ) (s : AudioQueueManager) :
    AudioQueueManager × Bool × List StartEv :=
  let r1 :=
    if (alookup s.queue s.nextPlayIndex).isSome then (s, false)
    else checkCompletion { s with isPlaying := false }
  let r2 := tryPlayNext t r1.1
  (r2.1, r1.2, r2.2)

/-- The `waitForCompletion` method: install the resolver, then re-check
(the flag records an immediate resolution). -/
def waitForCompletion (s : AudioQueueManager) : AudioQueueManager × Bool :=
  checkCompletion { s with hasWaiter := true }

/-- The `clear` method: reset every field to its constructor value and
resolve any pending `completionResolve`. -/
def clear (s : AudioQueueManager) : AudioQueueManager × Bool :=
  ({ queue := []
     nextPlayIndex := 0
     isPlaying := false
     scheduledEndTime := 0
     allEnqueued := false
     totalExpected := -1
     hasWaiter := false }, s.hasWaiter)

end AudioQueueManager

/-- Gapless-chain predicate: starting from previous scheduled end `p`,
every recorded start obeys the source rule
`startTime = max(currentTime + 0.02, scheduledEndTime)` and advances the
scheduled end by exactly the duration of the started buffer. -/
def chainedFrom (t : ℚ) : ℚ → List StartEv → Prop
  | _, [] => True
  | p, e :: rest =>
    e.start = max (t + 1 / 50) p ∧ e.endT = e.start + e.dur ∧
      chainedFrom t e.endT rest

/-- Scheduled end time after a list of starts, starting from `p`. -/
def endOf : ℚ → List StartEv → ℚ
  | p, [] => p
  | _, e :: rest => endOf e.endT rest

/-- Consecutive starts touch exactly: each one begins at the scheduled end
of its predecessor. -/
def noGap : List StartEv → Prop
  | [] => True
  | [_] => True
  | e :: f :: rest => f.start = e.endT ∧ noGap (f :: rest)

theorem chainedFrom_append (t : ℚ) (l1 l2 : List StartEv) :
    ∀ p, chainedFrom t p l1 → chainedFrom t (endOf p l1) l2 →
      chainedFrom t p (l1 ++ l2) := by
  induction l1 with
  | nil => intro p _ h2; exact h2
  | cons e rest ih =>
    intro p h1 h2
    obtain ⟨hs, he, hrest⟩ := h1
    exact ⟨hs, he, ih e.endT hrest h2⟩

theorem endOf_append (l1 l2 : List StartEv) :
    ∀ p, endOf p (l1 ++ l2) = endOf (endOf p l1) l2 := by
  induction l1 with
  | nil => intro p; rfl
  | cons e rest ih => intro p; exact ih e.endT

namespace AudioQueueManager

/-- Specification of one synchronous `tryPlayNext` chain: starting from
state `s` it plays the maximal run of consecutive indices present in the
queue beginning at the cursor, removing each started entry, and schedules
the started buffers back to back by the `max` rule. -/
structure TryPlayNextSpec (t : ℚ) (s s2 : AudioQueueManager)
    (evs : List StartEv) : Prop where
  nPI_le : s.nextPlayIndex ≤ s2.nextPlayIndex
  lookup_eq : ∀ i, alookup s2.queue i =
    if s.nextPlayIndex ≤ i ∧ i < s2.nextPlayIndex then none
    else alookup s.queue i
  lookup_cursor : alookup s2.queue s2.nextPlayIndex = none
  idx_eq : evs.map StartEv.idx =
    List.range' s.nextPlayIndex (s2.nextPlayIndex - s.nextPlayIndex)
  mem_lookup : ∀ e ∈ evs, alookup s.queue e.idx = some e.dur
  chain : chainedFrom t s.scheduledEndTime evs
  sched : s2.scheduledEndTime = endOf s.scheduledEndTime evs
  allEnq : s2.allEnqueued = s.allEnqueued
  total : s2.totalExpected = s.totalExpected
  waiter : s2.hasWaiter = s.hasWaiter
  nil_eq : evs = [] → s2 = s

theorem tryPlayNextGo_spec (t : ℚ) :
    ∀ fuel s, s.queue.length ≤ fuel →
      TryPlayNextSpec t s (tryPlayNextGo t fuel s).1 (tryPlayNextGo t fuel s).2 := by
  intro fuel
  induction fuel with
  | zero =>
    intro s hs
    have hq : s.queue = [] := List.length_eq_zero.mp (Nat.le_zero.mp hs)
    simp only [tryPlayNextGo]
    refine ⟨le_rfl, ?_, ?_, by rw [Nat.sub_self]; rfl, ?_, trivial, rfl, rfl,
      rfl, rfl, fun _ => rfl⟩
    · intro i
      rw [if_neg (by omega)]
    · rw [hq]; rfl
    · intro e he; simp at he
  | succ fuel ih =>
    intro s hs
    cases hq : alookup s.queue s.nextPlayIndex with
    | none =>
      have heq : tryPlayNextGo t (fuel + 1) s = (s, []) := by
        rw [tryPlayNextGo, hq]
      rw [heq]
      dsimp only
      refine ⟨le_rfl, ?_, hq, by rw [Nat.sub_self]; rfl, ?_, trivial, rfl, rfl,
        rfl, rfl, fun _ => rfl⟩
      · intro i
        rw [if_neg (by omega)]
      · intro e he; simp at he
    | some d =>
      have hlen : (stepState t d s).queue.length ≤ fuel := by
        have := aerase_length_lt s.queue s.nextPlayIndex d hq
        dsimp only [stepState]
        omega
      have S := ih (stepState t d s) hlen
      have heq : tryPlayNextGo t (fuel + 1) s =
          ((tryPlayNextGo t fuel (stepState t d s)).1,
            ⟨s.nextPlayIndex, max (t + 1 / 50) s.scheduledEndTime, d,
              max (t + 1 / 50) s.scheduledEndTime + d⟩ ::
              (tryPlayNextGo t fuel (stepState t d s)).2) := by
        rw [tryPlayNextGo, hq]
      rw [heq]
      dsimp only
      have hn1 : (stepState t d s).nextPlayIndex = s.nextPlayIndex + 1 := rfl
      have hle := S.nPI_le
      rw [hn1] at hle
      have hq1 : ∀ i, alookup (stepState t d s).queue i =
          if i = s.nextPlayIndex then none else alookup s.queue i :=
        fun i => alookup_aerase s.queue s.nextPlayIndex i
      constructor
      · omega
      · intro i
        rw [S.lookup_eq i, hq1 i, hn1]
        by_cases hi : i = s.nextPlayIndex
        · subst hi
          rw [if_neg (by omega), if_pos rfl, if_pos ⟨le_rfl, by omega⟩]
        · by_cases h2 : s.nextPlayIndex + 1 ≤ i ∧
              i < (tryPlayNextGo t fuel (stepState t d s)).1.nextPlayIndex
          · rw [if_pos h2, if_pos (by omega)]
          · rw [if_neg h2, if_neg hi, if_neg (by omega)]
      · exact S.lookup_cursor
      · rw [List.map_cons, S.idx_eq, hn1]
        have harith :
            (tryPlayNextGo t fuel (stepState t d s)).1.nextPlayIndex - s.nextPlayIndex =
              ((tryPlayNextGo t fuel (stepState t d s)).1.nextPlayIndex -
                (s.nextPlayIndex + 1)) + 1 := by
          omega
        rw [harith, List.range'_succ]
      · intro e he
        rcases List.mem_cons.mp he with he | he
        · rw [he]; exact hq
        · have hmem := S.mem_lookup e he
          rw [hq1 e.idx] at hmem
          by_cases hei : e.idx = s.nextPlayIndex
          · rw [if_pos hei] at hmem; exact absurd hmem (by simp)
          · rw [if_neg hei] at hmem; exact hmem
      · exact ⟨rfl, rfl, S.chain⟩
      · exact S.sched
      · exact S.allEnq
      · exact S.total
      · exact S.waiter
      · intro h; exact absurd h (by simp)

theorem tryPlayNext_spec (t : ℚ) (s : AudioQueueManager) :
    TryPlayNextSpec t s (tryPlayNext t s).1 (tryPlayNext t s).2 :=
  tryPlayNextGo_spec t s.queue.length s le_rfl

end AudioQueueManager

namespace AudioQueueManager

/-- Admission of a list of synthesis results, in arrival order: each one is
admitted through `enqueue` with its decoded duration.  All admissions of
the modeled scenario run before any buffer finishes, with the audio clock
at `t`. -/
def runEnq (t : ℚ) (dur : Nat → ℚ) : List Nat → AudioQueueManager →
    AudioQueueManager × List StartEv
  | [], s => (s, [])
  | i :: rest, s =>
    let r1 := enqueue t i (dur i) s
    let r2 := runEnq t dur rest r1.1
    (r2.1, r1.2 ++ r2.2)

/-- Invariant of the scheduler after the indices satisfying `A` have been
admitted: the started indices are exactly `0, …, nextPlayIndex − 1`, the
queue holds exactly the admitted indices beyond the cursor, every stored
or started duration is the admitted one, and the recorded starts form one
gapless chain from the initial scheduled end time `0`. -/
structure QueueInv (t : ℚ) (dur : Nat → ℚ) (A : Nat → Prop)
    (s : AudioQueueManager) (evs : List StartEv) : Prop where
  arrived_lt : ∀ i, i < s.nextPlayIndex → A i
  cursor_not : ¬A s.nextPlayIndex
  keys : ∀ i, (alookup s.queue i).isSome = true ↔ (A i ∧ s.nextPlayIndex < i)
  vals : ∀ i d, alookup s.queue i = some d → d = dur i
  played : evs.map StartEv.idx = List.range s.nextPlayIndex
  evdur : ∀ e ∈ evs, e.dur = dur e.idx
  chain : chainedFrom t 0 evs
  sched : s.scheduledEndTime = endOf 0 evs

theorem QueueInv.congr {t : ℚ} {dur : Nat → ℚ} {A B : Nat → Prop}
    {s : AudioQueueManager} {evs : List StartEv}
    (h : QueueInv t dur A s evs) (hAB : ∀ i, A i ↔ B i) :
    QueueInv t dur B s evs :=
  { arrived_lt := fun i hi => (hAB i).mp (h.arrived_lt i hi)
    cursor_not := fun hB => h.cursor_not ((hAB _).mpr hB)
    keys := fun i => (h.keys i).trans (and_congr_left fun _ => hAB i)
    vals := h.vals
    played := h.played
    evdur := h.evdur
    chain := h.chain
    sched := h.sched }

theorem queueInv_initial (t : ℚ) (dur : Nat → ℚ) :
    QueueInv t dur (fun _ => False) initial [] :=
  { arrived_lt := fun i hi => by simp [initial] at hi
    cursor_not := fun h => h
    keys := fun i => by simp [initial, alookup]
    vals := fun i d h => by simp [initial, alookup] at h
    played := rfl
    evdur := fun e he => by simp at he
    chain := trivial
    sched := rfl }

theorem queueInv_enqueue (t : ℚ) (dur : Nat → ℚ) (A : Nat → Prop)
    (s : AudioQueueManager) (evs : List StartEv) (j : Nat)
    (h : QueueInv t dur A s evs) (hj : ¬A j) :
    QueueInv t dur (fun i => i = j ∨ A i) (enqueue t j (dur j) s).1
      (evs ++ (enqueue t j (dur j) s).2) := by
  have hjn : s.nextPlayIndex ≤ j := by
    by_contra hlt
    exact hj (h.arrived_lt j (by omega))
  have hq1 : ∀ i, alookup (aset s.queue j (dur j)) i =
      if i = j then some (dur j) else alookup s.queue i :=
    fun i => alookup_aset s.queue j i (dur j)
  have S := tryPlayNext_spec t { s with queue := aset s.queue j (dur j) }
  set s1 : AudioQueueManager := { s with queue := aset s.queue j (dur j) }
    with hs1
  show QueueInv t dur (fun i => i = j ∨ A i) (tryPlayNext t s1).1
    (evs ++ (tryPlayNext t s1).2)
  have hs1n : s1.nextPlayIndex = s.nextPlayIndex := rfl
  have hs1q : s1.queue = aset s.queue j (dur j) := rfl
  have hs1e : s1.scheduledEndTime = s.scheduledEndTime := rfl
  have hnle := S.nPI_le
  rw [hs1n] at hnle
  -- every index started by this chain was present in the augmented queue
  have hstarted : ∀ i, s.nextPlayIndex ≤ i →
      i < (tryPlayNext t s1).1.nextPlayIndex →
      (alookup s1.queue i).isSome = true := by
    intro i hi1 hi2
    have hmem : i ∈ ((tryPlayNext t s1).2.map StartEv.idx) := by
      rw [S.idx_eq, List.mem_range'_1]
      rw [hs1n]
      omega
    rcases List.mem_map.mp hmem with ⟨e, he, hei⟩
    rw [← hei, S.mem_lookup e he]
    rfl
  -- any started index is admitted
  have hstart_adm : ∀ i, s.nextPlayIndex ≤ i →
      i < (tryPlayNext t s1).1.nextPlayIndex → (i = j ∨ A i) := by
    intro i hi1 hi2
    have hsome := hstarted i hi1 hi2
    rw [hq1 i] at hsome
    by_cases hij : i = j
    · exact Or.inl hij
    · rw [if_neg hij] at hsome
      exact Or.inr (((h.keys i).mp hsome).1)
  -- the queue at the final cursor is empty
  have hcursor : ∀ i, i = (tryPlayNext t s1).1.nextPlayIndex →
      ¬((alookup s1.queue i).isSome = true) := by
    intro i hi hsome
    have hlook : alookup (tryPlayNext t s1).1.queue i = none := by
      rw [hi]; exact S.lookup_cursor
    rw [S.lookup_eq i, if_neg (by rw [hs1n]; omega)] at hlook
    rw [hlook] at hsome
    exact absurd hsome (by simp)
  constructor
  · -- arrived_lt
    intro i hi
    by_cases hlt : i < s.nextPlayIndex
    · exact Or.inr (h.arrived_lt i hlt)
    · exact hstart_adm i (by omega) hi
  · -- cursor_not
    intro hcon
    have hn2n : s.nextPlayIndex ≤ (tryPlayNext t s1).1.nextPlayIndex := hnle
    rcases hcon with hcon | hcon
    · refine hcursor _ rfl ?_
      rw [hq1, if_pos hcon]
      rfl
    · by_cases hn2 : (tryPlayNext t s1).1.nextPlayIndex = s.nextPlayIndex
      · exact h.cursor_not (hn2 ▸ hcon)
      · refine hcursor _ rfl ?_
        rw [hq1]
        by_cases hn2j : (tryPlayNext t s1).1.nextPlayIndex = j
        · rw [if_pos hn2j]; rfl
        · rw [if_neg hn2j]
          exact (h.keys _).mpr ⟨hcon, by omega⟩
  · -- keys
    intro i
    rw [S.lookup_eq i]
    by_cases h1 : s1.nextPlayIndex ≤ i ∧ i < (tryPlayNext t s1).1.nextPlayIndex
    · rw [if_pos h1]
      rw [hs1n] at h1
      simp only [Option.isSome_none, Bool.false_eq_true, false_iff]
      intro ⟨_, hlt⟩
      omega
    · rw [if_neg h1, hq1 i]
      rw [hs1n] at h1
      by_cases hij : i = j
      · subst hij
        rw [if_pos rfl]
        have hneq : ¬i = (tryPlayNext t s1).1.nextPlayIndex := by
          intro hcon
          exact hcursor i hcon (by rw [hq1, if_pos rfl]; rfl)
        exact ⟨fun _ => ⟨Or.inl rfl, by omega⟩, fun _ => rfl⟩
      · rw [if_neg hij, h.keys i]
        constructor
        · intro ⟨hA, hgt⟩
          refine ⟨Or.inr hA, ?_⟩
          have hneq : ¬i = (tryPlayNext t s1).1.nextPlayIndex := by
            intro hcon
            exact hcursor i hcon
              (by rw [hq1, if_neg hij]; exact (h.keys i).mpr ⟨hA, hgt⟩)
          omega
        · intro ⟨hAi, hlt2⟩
          rcases hAi with hAi | hAi
          · exact absurd hAi hij
          · exact ⟨hAi, by omega⟩
  · -- vals
    intro i d hd
    rw [S.lookup_eq i] at hd
    by_cases h1 : s1.nextPlayIndex ≤ i ∧ i < (tryPlayNext t s1).1.nextPlayIndex
    · rw [if_pos h1] at hd
      exact absurd hd (by simp)
    · rw [if_neg h1, hq1 i] at hd
      by_cases hij : i = j
      · rw [if_pos hij] at hd
        injection hd with hd
        rw [← hd, hij]
      · rw [if_neg hij] at hd
        exact h.vals i d hd
  · -- played
    rw [List.map_append, h.played, S.idx_eq, hs1n,
      List.range'_eq_map_range, ← List.range_add,
      Nat.add_sub_cancel' hnle]
  · -- evdur
    intro e he
    rcases List.mem_append.mp he with he | he
    · exact h.evdur e he
    · have hv := S.mem_lookup e he
      rw [hq1 e.idx] at hv
      by_cases hij : e.idx = j
      · rw [if_pos hij] at hv
        injection hv with hv
        rw [← hv, hij]
      · rw [if_neg hij] at hv
        exact h.vals e.idx e.dur hv
  · -- chain
    refine chainedFrom_append t evs _ 0 h.chain ?_
    have hc := S.chain
    rw [hs1e, h.sched] at hc
    exact hc
  · -- sched
    rw [endOf_append, ← h.sched, ← hs1e]
    exact S.sched

theorem queueInv_runEnq (t : ℚ) (dur : Nat → ℚ) :
    ∀ (arr : List Nat) (A : Nat → Prop) (s : AudioQueueManager)
      (evs : List StartEv),
      QueueInv t dur A s evs → arr.Nodup → (∀ j ∈ arr, ¬A j) →
      QueueInv t dur (fun i => i ∈ arr ∨ A i) (runEnq t dur arr s).1
        (evs ++ (runEnq t dur arr s).2) := by
  intro arr
  induction arr with
  | nil =>
    intro A s evs h _ _
    simp only [runEnq, List.append_nil]
    exact h.congr fun i => by simp
  | cons j rest ih =>
    intro A s evs h hnd hfresh
    have hstep := queueInv_enqueue t dur A s evs j h
      (hfresh j (List.mem_cons_self j rest))
    have hrest := ih (fun i => i = j ∨ A i) (enqueue t j (dur j) s).1
      (evs ++ (enqueue t j (dur j) s).2) hstep
      (List.Nodup.of_cons hnd)
      (by
        intro i hi
        rintro (hij | hA)
        · subst hij
          exact (List.nodup_cons.mp hnd).1 hi
        · exact hfresh i (List.mem_cons_of_mem j hi) hA)
    have hfinal := hrest.congr (B := fun i => i ∈ j :: rest ∨ A i)
      (fun i => by
        constructor
        · rintro (hr | hij | hA)
          · exact Or.inl (List.mem_cons_of_mem j hr)
          · exact Or.inl (hij ▸ List.mem_cons_self j rest)
          · exact Or.inr hA
        · rintro (hm | hA)
          · rcases List.mem_cons.mp hm with hij | hr
            · exact Or.inr (Or.inl hij)
            · exact Or.inl hr
          · exact Or.inr (Or.inr hA))
    show QueueInv t dur _
      (runEnq t dur rest (enqueue t j (dur j) s).1).1
      (evs ++ ((enqueue t j (dur j) s).2 ++
        (runEnq t dur rest (enqueue t j (dur j) s).1).2))
    rw [← List.append_assoc]
    exact hfinal

/-- Invariant of the scheduler after an arbitrary prefix of a permutation
of `0, …, N − 1` has been admitted from the constructor state. -/
theorem queueInv_of_perm (t : ℚ) (dur : Nat → ℚ) (arr : List Nat)
    (hnd : arr.Nodup) :
    QueueInv t dur (fun i => i ∈ arr) (runEnq t dur arr initial).1
      (runEnq t dur arr initial).2 := by
  have h := queueInv_runEnq t dur arr (fun _ => False) initial []
    (queueInv_initial t dur) hnd (fun j _ hf => hf)
  simp only [List.nil_append] at h
  exact h.congr fun i => by simp

theorem nextPlayIndex_of_complete (t : ℚ) (dur : Nat → ℚ) (N : Nat)
    (perm : List Nat) (hp : perm.Perm (List.range N)) :
    (runEnq t dur perm initial).1.nextPlayIndex = N := by
  have hnd : perm.Nodup := (List.nodup_range N).perm hp.symm
  have hinv := queueInv_of_perm t dur perm hnd
  have hmem : ∀ i, i ∈ perm ↔ i < N := by
    intro i
    rw [hp.mem_iff, List.mem_range]
  have h1 : ¬(runEnq t dur perm initial).1.nextPlayIndex < N := by
    intro hlt
    exact hinv.cursor_not ((hmem _).mpr hlt)
  have h2 : ∀ i, i < (runEnq t dur perm initial).1.nextPlayIndex → i < N :=
    fun i hi => (hmem i).mp (hinv.arrived_lt i hi)
  by_contra hne
  have hNlt : N < (runEnq t dur perm initial).1.nextPlayIndex := by omega
  exact absurd (h2 N hNlt) (by omega)

end AudioQueueManager

open AudioQueueManager in
/-- C2.  For every expected count `N` and every permutation `perm` of the
arrival order of the synthesis results `0, …, N − 1` admitted through
`enqueue`, the scheduler starts the buffers in exactly index order
`0, 1, …, N − 1`, ends with its cursor at `N` and an empty queue, and after
every arrival prefix each already started entry has been removed from the
queue. -/
theorem drishti_c2_playback_order (t : ℚ) (dur : Nat → ℚ) (N : Nat)
    (perm : List Nat) (hp : perm.Perm (List.range N)) :
    (runEnq t dur perm initial).2.map StartEv.idx = List.range N ∧
    (runEnq t dur perm initial).1.nextPlayIndex = N ∧
    (∀ i, alookup (runEnq t dur perm initial).1.queue i = none) ∧
    (∀ p q, perm = p ++ q → ∀ e ∈ (runEnq t dur p initial).2,
      alookup (runEnq t dur p initial).1.queue e.idx = none) := by
  have hnd : perm.Nodup := (List.nodup_range N).perm hp.symm
  have hinv := queueInv_of_perm t dur perm hnd
  have hN := nextPlayIndex_of_complete t dur N perm hp
  refine ⟨?_, hN, ?_, ?_⟩
  · rw [hinv.played, hN]
  · intro i
    have hkeys := hinv.keys i
    rw [hN] at hkeys
    cases hlook : alookup (runEnq t dur perm initial).1.queue i with
    | none => rfl
    | some d =>
      exfalso
      have : i ∈ perm ∧ N < i := by
        rw [← hkeys, hlook]
        rfl
      have : i < N := by rw [← List.mem_range, ← hp.mem_iff]; exact this.1
      omega
  · intro p q hpq e he
    have hndp : p.Nodup := by
      rw [hpq] at hnd
      exact hnd.of_append_left
    have hinvp := queueInv_of_perm t dur p hndp
    have hidx : e.idx < (runEnq t dur p initial).1.nextPlayIndex := by
      have hmem : e.idx ∈ (runEnq t dur p initial).2.map StartEv.idx :=
        List.mem_map.mpr ⟨e, he, rfl⟩
      rw [hinvp.played, List.mem_range] at hmem
      exact hmem
    cases hlook : alookup (runEnq t dur p initial).1.queue e.idx with
    | none => rfl
    | some d =>
      exfalso
      have hsome : (alookup (runEnq t dur p initial).1.queue e.idx).isSome
          = true := by rw [hlook]; rfl
      have := ((hinvp.keys e.idx).mp hsome).2
      omega

/-- C2 witness at a concrete permutation: three synthesis results arriving
in the order 2, 0, 1 are still started in index order 0, 1, 2. -/
theorem drishti_c2_playback_order_witness :
    (AudioQueueManager.runEnq 0 (fun _ => 1) [2, 0, 1]
        AudioQueueManager.initial).2.map StartEv.idx = List.range 3 ∧
    (AudioQueueManager.runEnq 0 (fun _ => 1) [2, 0, 1]
        AudioQueueManager.initial).1.nextPlayIndex = 3 ∧
    (∀ i, alookup (AudioQueueManager.runEnq 0 (fun _ => 1) [2, 0, 1]
        AudioQueueManager.initial).1.queue i = none) ∧
    (∀ p q, [2, 0, 1] = p ++ q →
      ∀ e ∈ (AudioQueueManager.runEnq 0 (fun _ => 1) p
          AudioQueueManager.initial).2,
        alookup (AudioQueueManager.runEnq 0 (fun _ => 1) p
          AudioQueueManager.initial).1.queue e.idx = none) :=
  drishti_c2_playback_order 0 (fun _ => 1) 3 [2, 0, 1] (by decide)

theorem chainedFrom_noGap (t : ℚ) :
    ∀ (l : List StartEv) (p : ℚ), chainedFrom t p l →
      (∀ e ∈ l, 0 ≤ e.dur) → noGap l := by
  intro l
  induction l with
  | nil => intro p _ _; trivial
  | cons e rest ih =>
    intro p h hd
    obtain ⟨hs, he, hrest⟩ := h
    cases rest with
    | nil => trivial
    | cons f r2 =>
      refine ⟨?_, ih e.endT hrest
        (fun x hx => hd x (List.mem_cons_of_mem e hx))⟩
      have hlead : t + 1 / 50 ≤ e.endT := by
        have h1 : t + 1 / 50 ≤ e.start := hs ▸ le_max_left _ _
        have h2 : 0 ≤ e.dur := hd e (List.mem_cons_self e _)
        rw [he]
        linarith
      have := hrest.1
      rw [this, max_eq_right hlead]

open AudioQueueManager in
/-- C3.  Every started buffer is scheduled at
`max(currentClockTime + 0.02, previousScheduledEndTime)` with the
scheduled end time advanced to `startTime + duration` (the `chainedFrom`
conjunct), and when all buffers of the turn are admitted before playback
of the first begins (one synchronous admission pass at clock `t`),
consecutive buffers neither overlap nor leave any gap: each one starts
exactly at the scheduled end of its predecessor, and the first starts at
`t + 0.02`. -/
theorem drishti_c3_gapless_schedule (t : ℚ) (dur : Nat → ℚ) (N : Nat)
    (perm : List Nat) (ht : 0 ≤ t) (hdur : ∀ i, 0 ≤ dur i)
    (hp : perm.Perm (List.range N)) :
    chainedFrom t 0 (runEnq t dur perm initial).2 ∧
    noGap (runEnq t dur perm initial).2 ∧
    (∀ e l, (runEnq t dur perm initial).2 = e :: l →
      e.start = t + 1 / 50) ∧
    (runEnq t dur perm initial).1.scheduledEndTime =
      endOf 0 (runEnq t dur perm initial).2 := by
  have hnd : perm.Nodup := (List.nodup_range N).perm hp.symm
  have hinv := queueInv_of_perm t dur perm hnd
  have hdurs : ∀ e ∈ (runEnq t dur perm initial).2, 0 ≤ e.dur := by
    intro e he
    rw [hinv.evdur e he]
    exact hdur e.idx
  refine ⟨hinv.chain, chainedFrom_noGap t _ 0 hinv.chain hdurs, ?_,
    hinv.sched⟩
  intro e l hel
  have hchain := hinv.chain
  rw [hel] at hchain
  have hstart := hchain.1
  rw [hstart, max_eq_left (by linarith)]

/-- C3 witness at a concrete scenario: two unit-length buffers arriving in
the order 1, 0 at clock 0. -/
theorem drishti_c3_gapless_schedule_witness :
    chainedFrom 0 0 (AudioQueueManager.runEnq 0 (fun _ => 1) [1, 0]
      AudioQueueManager.initial).2 ∧
    noGap (AudioQueueManager.runEnq 0 (fun _ => 1) [1, 0]
      AudioQueueManager.initial).2 ∧
    (∀ e l, (AudioQueueManager.runEnq 0 (fun _ => 1) [1, 0]
        AudioQueueManager.initial).2 = e :: l → e.start = 0 + 1 / 50) ∧
    (AudioQueueManager.runEnq 0 (fun _ => 1) [1, 0]
        AudioQueueManager.initial).1.scheduledEndTime =
      endOf 0 (AudioQueueManager.runEnq 0 (fun _ => 1) [1, 0]
        AudioQueueManager.initial).2 :=
  drishti_c3_gapless_schedule 0 (fun _ => 1) 2 [1, 0] le_rfl
    (fun _ => zero_le_one) (by decide)

open AudioQueueManager in
/-- C4.  For every scheduler state, `clear` discards all pending entries,
resets the cursor, the scheduled-end-time clock, the flags and the
expected total to their constructor values, and calls the pending
`completionResolve` exactly when one is installed. -/
theorem drishti_c4_clear_resets (s : AudioQueueManager) :
    (clear s).1 = initial ∧
    (∀ i, alookup (clear s).1.queue i = none) ∧
    (clear s).1.nextPlayIndex = 0 ∧
    (clear s).1.scheduledEndTime = 0 ∧
    (clear s).1.allEnqueued = false ∧
    (clear s).1.totalExpected = -1 ∧
    (clear s).2 = s.hasWaiter :=
  ⟨rfl, fun _ => rfl, rfl, rfl, rfl, rfl, rfl⟩

/-- Events that the surrounding turn can apply to the playback scheduler:
an admission, the end-of-dispatch mark, a buffer-finished callback, a
`waitForCompletion` registration, or a `clear`. -/
inductive QueueEvent where
  | enq (t : ℚ) (i : Nat) (d : ℚ)
  | markAll (total : Int)
  | ended (t : ℚ)
  | wait
  | clearQ
deriving DecidableEq

namespace AudioQueueManager

/-- Effect of one scheduler event; the flag records whether the pending
`completionResolve` was called during the event. -/
def queueStep (s : AudioQueueManager) : QueueEvent → AudioQueueManager × Bool
  | .enq t i d => ((enqueue t i d s).1, false)
  | .markAll n => markAllEnqueued n s
  | .ended t =>
    let r := sourceEnded t s
    (r.1, r.2.1)
  | .wait => waitForCompletion s
  | .clearQ => clear s

/-- Fold of scheduler events; the flag records whether any event resolved
the pending completion. -/
def queueRun (s : AudioQueueManager) :
    List QueueEvent → AudioQueueManager × Bool
  | [] => (s, false)
  | e :: rest =>
    let r1 := queueStep s e
    let r2 := queueRun r1.1 rest
    (r2.1, r1.2 || r2.2)

/-- Stall invariant for a permanently missing index `k`: the cursor has
not passed `k`, the queue never holds `k`, and once the expected total is
recorded it exceeds `k`. -/
def StallInv (k : Nat) (s : AudioQueueManager) : Prop :=
  s.nextPlayIndex ≤ k ∧ alookup s.queue k = none ∧
    (s.allEnqueued = true → (k : Int) < s.totalExpected)

theorem tryPlayNext_stall (t : ℚ) (k : Nat) (s : AudioQueueManager)
    (h1 : s.nextPlayIndex ≤ k) (h2 : alookup s.queue k = none) :
    (tryPlayNext t s).1.nextPlayIndex ≤ k ∧
      alookup (tryPlayNext t s).1.queue k = none := by
  have S := tryPlayNext_spec t s
  have hn2 : (tryPlayNext t s).1.nextPlayIndex ≤ k := by
    by_contra hgt
    have hmem : k ∈ (tryPlayNext t s).2.map StartEv.idx := by
      rw [S.idx_eq, List.mem_range'_1]
      omega
    rcases List.mem_map.mp hmem with ⟨e, he, hei⟩
    have hsome := S.mem_lookup e he
    rw [hei, h2] at hsome
    exact absurd hsome (by simp)
  refine ⟨hn2, ?_⟩
  rw [S.lookup_eq k, if_neg (by omega), h2]

theorem checkCompletion_stall (k : Nat) (s : AudioQueueManager)
    (h : StallInv k s) : checkCompletion s = (s, false) := by
  have hcond : ¬(s.allEnqueued = true ∧
      s.totalExpected ≤ (s.nextPlayIndex : Int) ∧ s.isPlaying = false) := by
    rintro ⟨hA, hT, _⟩
    have hkt := h.2.2 hA
    have hnk := h.1
    omega
  rw [checkCompletion, if_neg hcond]

theorem queueStep_stall (k : Nat) (s : AudioQueueManager) (e : QueueEvent)
    (h : StallInv k s)
    (he1 : ∀ t i d, e = .enq t i d → i ≠ k)
    (he2 : ∀ n, e = .markAll n → (k : Int) < n)
    (he3 : e ≠ .clearQ) :
    StallInv k (queueStep s e).1 ∧ (queueStep s e).2 = false := by
  cases e with
  | enq t i d =>
    have hik : i ≠ k := he1 t i d rfl
    have hset : alookup (aset s.queue i d) k = none := by
      rw [alookup_aset, if_neg (by omega)]
      exact h.2.1
    have htp := tryPlayNext_stall t k { s with queue := aset s.queue i d }
      h.1 hset
    have S := tryPlayNext_spec t { s with queue := aset s.queue i d }
    show StallInv k (tryPlayNext t { s with queue := aset s.queue i d }).1 ∧
      (false : Bool) = false
    refine ⟨⟨htp.1, htp.2, ?_⟩, rfl⟩
    intro hA
    rw [S.total]
    apply h.2.2
    rw [← S.allEnq]
    exact hA
  | markAll n =>
    have hkn : (k : Int) < n := he2 n rfl
    have hinv : StallInv k
        { s with allEnqueued := true, totalExpected := n } :=
      ⟨h.1, h.2.1, fun _ => hkn⟩
    show StallInv k (checkCompletion _).1 ∧ (checkCompletion _).2 = false
    rw [checkCompletion_stall k _ hinv]
    exact ⟨hinv, rfl⟩
  | ended t =>
    by_cases hcur : (alookup s.queue s.nextPlayIndex).isSome
    · have htp := tryPlayNext_stall t k s h.1 h.2.1
      have S := tryPlayNext_spec t s
      have heq : queueStep s (.ended t) = ((tryPlayNext t s).1, false) := by
        simp only [queueStep, sourceEnded]
        rw [if_pos hcur]
      rw [heq]
      refine ⟨⟨htp.1, htp.2, ?_⟩, rfl⟩
      intro hA
      rw [S.total]
      apply h.2.2
      rw [← S.allEnq]
      exact hA
    · have hinv : StallInv k { s with isPlaying := false } :=
        ⟨h.1, h.2.1, h.2.2⟩
      have hchk := checkCompletion_stall k _ hinv
      have heq : queueStep s (.ended t) =
          ((tryPlayNext t { s with isPlaying := false }).1, false) := by
        simp only [queueStep, sourceEnded]
        rw [if_neg hcur, hchk]
      rw [heq]
      have htp := tryPlayNext_stall t k { s with isPlaying := false }
        h.1 h.2.1
      have S := tryPlayNext_spec t { s with isPlaying := false }
      refine ⟨⟨htp.1, htp.2, ?_⟩, rfl⟩
      intro hA
      rw [S.total]
      apply h.2.2
      rw [← S.allEnq]
      exact hA
  | wait =>
    have hinv : StallInv k { s with hasWaiter := true } :=
      ⟨h.1, h.2.1, h.2.2⟩
    show StallInv k (checkCompletion _).1 ∧ (checkCompletion _).2 = false
    rw [checkCompletion_stall k _ hinv]
    exact ⟨hinv, rfl⟩
  | clearQ => exact absurd rfl he3

theorem queueRun_stall (k : Nat) :
    ∀ (evs : List QueueEvent) (s : AudioQueueManager), StallInv k s →
      (∀ t i d, QueueEvent.enq t i d ∈ evs → i ≠ k) →
      (∀ n, QueueEvent.markAll n ∈ evs → (k : Int) < n) →
      QueueEvent.clearQ ∉ evs →
      StallInv k (queueRun s evs).1 ∧ (queueRun s evs).2 = false := by
  intro evs
  induction evs with
  | nil => intro s h _ _ _; exact ⟨h, rfl⟩
  | cons e rest ih =>
    intro s h h1 h2 h3
    have hstep := queueStep_stall k s e h
      (fun t i d hd => h1 t i d (hd ▸ List.mem_cons_self e rest))
      (fun n hn => h2 n (hn ▸ List.mem_cons_self e rest))
      (fun hc => h3 (hc ▸ List.mem_cons_self e rest))
    have hrest := ih (queueStep s e).1 hstep.1
      (fun t i d hd => h1 t i d (List.mem_cons_of_mem e hd))
      (fun n hn => h2 n (List.mem_cons_of_mem e hn))
      (fun hc => h3 (List.mem_cons_of_mem e hc))
    refine ⟨hrest.1, ?_⟩
    show ((queueStep s e).2 || (queueRun (queueStep s e).1 rest).2) = false
    rw [hstep.2, hrest.2]
    rfl

end AudioQueueManager

open AudioQueueManager in
/-- C5.  If some index `k` below every recorded expected total is never
admitted and `clear` is never called, then over any sequence of scheduler
events starting from the constructor state the cursor never advances past
`k` and no pending `waitForCompletion` resolution ever fires. -/
theorem drishti_c5_missing_index_stalls (k : Nat) (evs : List QueueEvent)
    (h1 : ∀ t i d, QueueEvent.enq t i d ∈ evs → i ≠ k)
    (h2 : ∀ n, QueueEvent.markAll n ∈ evs → (k : Int) < n)
    (h3 : QueueEvent.clearQ ∉ evs) :
    (queueRun initial evs).1.nextPlayIndex ≤ k ∧
      (queueRun initial evs).2 = false := by
  have hinit : StallInv k initial :=
    ⟨Nat.zero_le k, rfl, fun h => by simp [initial] at h⟩
  have := queueRun_stall k evs initial hinit h1 h2 h3
  exact ⟨this.1.1, this.2⟩

/-- C5 witness: index 1 of an expected total of 2 is never admitted; after
admitting index 0, marking completion, registering a waiter and one
buffer-finished callback, the cursor is still at most 1 and the waiter has
not been resolved. -/
theorem drishti_c5_missing_index_stalls_witness :
    (AudioQueueManager.queueRun AudioQueueManager.initial
      [QueueEvent.enq 0 0 1, QueueEvent.markAll 2, QueueEvent.wait,
        QueueEvent.ended 0]).1.nextPlayIndex ≤ 1 ∧
    (AudioQueueManager.queueRun AudioQueueManager.initial
      [QueueEvent.enq 0 0 1, QueueEvent.markAll 2, QueueEvent.wait,
        QueueEvent.ended 0]).2 = false := by
  refine drishti_c5_missing_index_stalls 1 _ ?_ ?_ ?_
  · intro t i d h
    simp only [List.mem_cons, List.not_mem_nil, or_false] at h
    rcases h with h | h | h | h
    · obtain ⟨-, hi, -⟩ := QueueEvent.enq.inj h
      omega
    · exact absurd h (by intro hc; cases hc)
    · exact absurd h (by intro hc; cases hc)
    · exact absurd h (by intro hc; cases hc)
  · intro n h
    simp only [List.mem_cons, List.not_mem_nil, or_false] at h
    rcases h with h | h | h | h
    · exact absurd h (by intro hc; cases hc)
    · have := QueueEvent.markAll.inj h
      omega
    · exact absurd h (by intro hc; cases hc)
    · exact absurd h (by intro hc; cases hc)
  · intro h
    simp only [List.mem_cons, List.not_mem_nil, or_false] at h
    rcases h with h | h | h | h <;> cases h

/-!
Embedding of the `stripThinking` helper of the `/api/chat` route.  Strings
are lists of characters; the JS regex operations over the two literal
markers are embedded by explicit substring searches:

* `text.replace(/<think>[\s\S]*?<\/think>/g, '')` removes, left to right,
  every span from a start marker to the next end marker (`removeBlocks`);
* `text.replace(/<think>[\s\S]*/g, '')` keeps the prefix before the first
  start marker (`beforeFirst`);
* `text.replace(/[\s\S]*<\/think>/g, '')` keeps the suffix after the last
  end marker, since the greedy leading `[\s\S]*` reaches the last
  occurrence (`afterLast`).

Recursions over shrinking suffixes are structural on a fuel argument
initialised with the string length, which bounds the number of iterations
because every iteration consumes at least the nonempty marker.
-/

/-- First occurrence of `pat`: `some (before, after)` splits the string
around it. -/
def findSplit (pat : List Char) : List Char → Option (List Char × List Char)
  | [] => if pat.isPrefixOf ([] : List Char) then some ([], []) else none
  | c :: rest =>
    if pat.isPrefixOf (c :: rest) then some ([], (c :: rest).drop pat.length)
    else
      match findSplit pat rest with
      | some (a, b) => some (c :: a, b)
      | none => none

/-- The `includes` check of JS strings. -/
def hasSubstr (pat s : List Char) : Bool := (findSplit pat s).isSome

/-- Prefix before the first occurrence of `pat` (the whole string if there
is none). -/
def beforeFirst (pat s : List Char) : List Char :=
  match findSplit pat s with
  | some (a, _) => a
  | none => s

def afterLastGo (pat : List Char) : Nat → List Char → List Char
  | 0, s => s
  | fuel + 1, s =>
    match findSplit pat s with
    | none => s
    | some (_, b) => afterLastGo pat fuel b

/-- Suffix after the last occurrence of `pat` (the whole string if there
is none). -/
def afterLast (pat s : List Char) : List Char := afterLastGo pat s.length s

def thinkStart : List Char := "<think>".toList

def thinkEnd : List Char := "</think>".toList

def removeBlocksGo : Nat → List Char → List Char
  | 0, s => s
  | fuel + 1, s =>
    match findSplit thinkStart s with
    | none => s
    | some (a, rest) =>
      match findSplit thinkEnd rest with
      | none => s
      | some (_, tail) => a ++ removeBlocksGo fuel tail

/-- Removal of every complete start-to-end span, scanning left to right;
with no end marker after the first start marker the string is unchanged,
as in the non-greedy global regex. -/
def removeBlocks (s : List Char) : List Char := removeBlocksGo s.length s

/-- The `stripThinking(text)` function of the chat route.  The module
variable `insideThinking` is threaded as explicit state: the result pairs
the updated flag with the forwarded text.  Flow of the source: first
remove complete spans; a remaining start marker sets the flag and drops
the text from the marker on; if the flag is set and an end marker is
present, clear the flag and drop the text through the last end marker;
if the flag is still set, forward nothing. -/
def stripThinking (insideThinking : Bool) (text : List Char) :
    Bool × List Char :=
  if hasSubstr thinkStart (removeBlocks text) then
    if hasSubstr thinkEnd (beforeFirst thinkStart (removeBlocks text)) then
      (false, afterLast thinkEnd (beforeFirst thinkStart (removeBlocks text)))
    else (true, [])
  else if insideThinking then
    if hasSubstr thinkEnd (removeBlocks text) then
      (false, afterLast thinkEnd (removeBlocks text))
    else (true, [])
  else (false, removeBlocks text)

/-- C6.  A complete hidden span inside one delta is stripped; the same
content split across two deltas gives the identical forwarded text, with
the unmatched start marker switching the decoder into hidden mode and the
end marker releasing it; and while the decoder stays in hidden mode
nothing at all is forwarded. -/
theorem drishti_c6_hidden_span_filter :
    stripThinking false "<think>secret</think>visible text".toList
        = (false, "visible text".toList) ∧
    stripThinking false "<think>sec".toList = (true, []) ∧
    stripThinking true "ret</think>visible text".toList
        = (false, "visible text".toList) ∧
    (∀ b t, (stripThinking b t).1 = true → (stripThinking b t).2 = []) := by
  refine ⟨by decide, by decide, by decide, ?_⟩
  intro b t h
  unfold stripThinking at h ⊢
  repeat' split at h
  all_goals simp_all

/-- C6 witness: a delta holding an unmatched start marker leaves the
decoder in hidden mode and forwards nothing. -/
theorem drishti_c6_hidden_span_filter_witness :
    (stripThinking false "<think>x".toList).1 = true ∧
    (stripThinking false "<think>x".toList).2 = [] :=
  ⟨by decide, drishti_c6_hidden_span_filter.2.2.2 false _ (by decide)⟩

/-!
Embedding of the `/api/chat` sentence pipeline of `server.js`: each
streamed delta is passed through `stripThinking`, forwarded as a token,
accumulated into `sentenceBuffer`, scanned by the boundary regex
`/([.!?])\s+/g` with the minimum accepted length 10, and each accepted
sentence is emitted through `cleanText` with the next index; at stream end
the cleaned remaining buffer is flushed as one final sentence.

The regex scan is embedded by `scanSentencesGo`: a boundary candidate is a
terminal punctuation character followed by at least one whitespace
character; the greedy `\s+` consumes the whole whitespace run; when the
trimmed candidate is shorter than the minimum, `lastIndex` is not advanced
(the pending text keeps growing across the skipped boundary) but scanning
continues after the match, exactly as in the source loop.  `\s` is
embedded by the common ASCII whitespace characters, which covers every
modeled input.
-/

def isSentenceBoundaryChar (c : Char) : Bool := c = '.' || c = '!' || c = '?'

def isJsWhitespace (c : Char) : Bool :=
  c = ' ' || c = '\t' || c = '\n' || c = '\r' ||
    c = Char.ofNat 11 || c = Char.ofNat 12

/-- The `trim()` method of JS strings. -/
def trimChars (s : List Char) : List Char :=
  ((s.dropWhile isJsWhitespace).reverse.dropWhile isJsWhitespace).reverse

/-- One pass of the boundary-scanning loop.  `pending` is the text since
`lastIndex`; the fuel is initialised with the length of the remaining
text, which bounds the number of iterations because every iteration
consumes at least one character. -/
def scanSentencesGo (minLen : Nat) :
    Nat → List Char → List Char → List (List Char) × List Char
  | 0, pending, rest => ([], pending ++ rest)
  | fuel + 1, pending, rest =>
    match rest with
    | [] => ([], pending)
    | c :: rest2 =>
      if isSentenceBoundaryChar c &&
          (match rest2 with | [] => false | d :: _ => isJsWhitespace d) then
        let ws := rest2.takeWhile isJsWhitespace
        let tail := rest2.dropWhile isJsWhitespace
        let candidate := trimChars (pending ++ [c])
        if minLen ≤ candidate.length then
          let r := scanSentencesGo minLen fuel [] tail
          (candidate :: r.1, r.2)
        else scanSentencesGo minLen fuel (pending ++ c :: ws) tail
      else scanSentencesGo minLen fuel (pending ++ [c]) rest2

/-- Boundary scan of the accumulated buffer: the accepted sentences in
order and the remaining text after the last accepted boundary. -/
def extractSentences (minLen : Nat) (s : List Char) :
    List (List Char) × List Char :=
  scanSentencesGo minLen s.length [] s

def removeAllSubGo (pat : List Char) : Nat → List Char → List Char
  | 0, s => s
  | fuel + 1, s =>
    match findSplit pat s with
    | none => s
    | some (a, b) => a ++ removeAllSubGo pat fuel b

/-- Global removal of a literal pattern, embedding `replace(/pat/g, '')`. -/
def removeAllSub (pat s : List Char) : List Char := removeAllSubGo pat s.length s

/-- Embedding of `replace(/#{1,6}\s/g, '')`: one to six hashes followed by
one whitespace character are dropped; of a longer hash run only the last
six (the greedy match starting latest) are dropped. -/
def removeHeadingsGo : Nat → List Char → List Char
  | 0, s => s
  | _ + 1, [] => []
  | fuel + 1, c :: rest =>
    if c = '#' then
      let run := 1 + (rest.takeWhile (fun x => x = '#')).length
      let rest2 := rest.dropWhile (fun x => x = '#')
      match rest2 with
      | w :: tail =>
        if isJsWhitespace w then
          List.replicate (run - 6) '#' ++ removeHeadingsGo fuel tail
        else List.replicate run '#' ++ removeHeadingsGo fuel rest2
      | [] => List.replicate run '#'
    else c :: removeHeadingsGo fuel rest

def removeHeadings (s : List Char) : List Char := removeHeadingsGo s.length s

/-- Embedding of `replace(/\[([^\]]+)\]\([^)]+\)/g, '$1')`: a bracketed
nonempty label followed by a parenthesised nonempty target collapses to
the label; on a failed match scanning resumes one character later. -/
def removeLinksGo : Nat → List Char → List Char
  | 0, s => s
  | _ + 1, [] => []
  | fuel + 1, c :: rest =>
    if c = '[' then
      match rest.takeWhile (fun x => x ≠ ']'),
          rest.dropWhile (fun x => x ≠ ']') with
      | label :: labelRest, ']' :: '(' :: rest2 =>
        match rest2.takeWhile (fun x => x ≠ ')'),
            rest2.dropWhile (fun x => x ≠ ')') with
        | _ :: _, ')' :: tail =>
          (label :: labelRest) ++ removeLinksGo fuel tail
        | _, _ => c :: removeLinksGo fuel rest
      | _, _ => c :: removeLinksGo fuel rest
    else c :: removeLinksGo fuel rest

def removeLinks (s : List Char) : List Char := removeLinksGo s.length s

def backtickChar : Char := Char.ofNat 96

/-- The `cleanText` helper of the chat route: drop `**`, then `*`, then
heading markers, then backticks, collapse links to their labels, trim. -/
def cleanText (s : List Char) : List Char :=
  trimChars (removeLinks (removeAllSub [backtickChar]
    (removeHeadings (removeAllSub ['*'] (removeAllSub ['*', '*'] s)))))

/-- Per-turn state of the chat route stream loop. -/
structure ChatStreamState where
  insideThinking : Bool
  sentenceBuffer : List Char
  sentenceIndex : Nat
deriving DecidableEq

def initialChatStream : ChatStreamState := ⟨false, [], 0⟩

/-- Emission loop over the accepted sentences: each cleaned nonempty
sentence is written with the next index; a sentence cleaned to nothing is
dropped without consuming an index. -/
def emitSentences (idx : Nat) :
    List (List Char) → Nat × List (Nat × List Char)
  | [] => (idx, [])
  | s :: rest =>
    if cleanText s = [] then emitSentences idx rest
    else
      let r := emitSentences (idx + 1) rest
      (r.1, (idx, cleanText s) :: r.2)

/-- Handling of one streamed content delta: strip hidden spans, skip when
nothing survives, otherwise accumulate and emit the accepted sentences. -/
def processDelta (st : ChatStreamState) (content : List Char) :
    ChatStreamState × List (Nat × List Char) :=
  let stripped := stripThinking st.insideThinking content
  if stripped.2 = [] then ({ st with insideThinking := stripped.1 }, [])
  else
    let scan := extractSentences 10 (st.sentenceBuffer ++ stripped.2)
    let emitted := emitSentences st.sentenceIndex scan.1
    ({ insideThinking := stripped.1
       sentenceBuffer := scan.2
       sentenceIndex := emitted.1 }, emitted.2)

/-- End-of-stream flush: the cleaned remaining buffer, when nonempty, is
emitted as one final sentence with the next index. -/
def flushRemaining (st : ChatStreamState) : List (Nat × List Char) :=
  if cleanText st.sentenceBuffer = [] then []
  else [(st.sentenceIndex, cleanText st.sentenceBuffer)]

/-- Processing of a whole stream of deltas, collecting the sentence events
emitted while streaming. -/
def runChatStream :
    ChatStreamState → List (List Char) → ChatStreamState × List (Nat × List Char)
  | st, [] => (st, [])
  | st, d :: rest =>
    let r1 := processDelta st d
    let r2 := runChatStream r1.1 rest
    (r2.1, r1.2 ++ r2.2)

/-- C7.  Feeding `"Hello world. This is a test."` as one delta and then
signaling stream end yields exactly the two sentence units
`(0, "Hello world.")` — emitted at the boundary during streaming — and
`(1, "This is a test.")` — emitted by the end-of-stream flush; feeding
`"Partial thought"` and then signaling stream end emits nothing during
streaming and exactly `(0, "Partial thought")` from the flush, without a
terminal punctuation mark. -/
theorem drishti_c7_sentence_segmentation :
    (runChatStream initialChatStream
        ["Hello world. This is a test.".toList]).2
      = [(0, "Hello world.".toList)] ∧
    flushRemaining (runChatStream initialChatStream
        ["Hello world. This is a test.".toList]).1
      = [(1, "This is a test.".toList)] ∧
    (runChatStream initialChatStream ["Partial thought".toList]).2 = [] ∧
    flushRemaining (runChatStream initialChatStream
        ["Partial thought".toList]).1
      = [(0, "Partial thought".toList)] :=
  ⟨by decide, by decide, by decide, by decide⟩

/-!
Embedding of the voice-activity detector of the client (`VAD.monitor`).
Each animation-frame tick samples an RMS energy (a rational) at a time
`Date.now()` (a natural, in milliseconds) and updates the detector state;
the emitted events record the `onSpeechStart` and `onSpeechEnd` callback
invocations of that tick.
-/

def SPEECH_THRESHOLD : ℚ := 18 / 1000

def SILENCE_THRESHOLD : ℚ := 9 / 1000

def SILENCE_DURATION : Nat := 900

structure VadState where
  speechDetected : Bool
  silenceStart : Nat
deriving DecidableEq

inductive VadEvent where
  | speechStart
  | speechEnd
deriving DecidableEq

def vadInitial : VadState := ⟨false, 0⟩

/-- One `VAD.monitor` tick on a state, at time `now` with energy `rms`. -/
def vadMonitorStep (v : VadState) (now : Nat) (rms : ℚ) :
    VadState × List VadEvent :=
  if SPEECH_THRESHOLD < rms then
    (⟨true, 0⟩, if v.speechDetected then [] else [VadEvent.speechStart])
  else if rms < SILENCE_THRESHOLD ∧ v.speechDetected = true then
    if v.silenceStart = 0 then ({ v with silenceStart := now }, [])
    else if SILENCE_DURATION < now - v.silenceStart then
      (⟨false, 0⟩, [VadEvent.speechEnd])
    else (v, [])
  else (v, [])

/-- Processing of a trace of ticks, collecting the events of each tick. -/
def runVad : VadState → List (Nat × ℚ) → VadState × List (List VadEvent)
  | v, [] => (v, [])
  | v, (n, r) :: rest =>
    let r1 := vadMonitorStep v n r
    let r2 := runVad r1.1 rest
    (r2.1, r1.2 :: r2.2)

/-- The entering half of claim C8: `onSpeechStart` fires exactly on a
sample above the upper threshold while not already in speech. -/
def vadEntersOnUpper : Prop :=
  ∀ v now rms, VadEvent.speechStart ∈ (vadMonitorStep v now rms).2 ↔
    (SPEECH_THRESHOLD < rms ∧ v.speechDetected = false)

/-- The exiting half of claim C8 as stated: whenever `onSpeechEnd` fires
at a tick, every sample of the trace within the minimum silence duration
before that tick was strictly below the lower threshold. -/
def vadExitOnlyAfterContinuousSilence : Prop :=
  ∀ (tr : List (Nat × ℚ)) (i : Nat), i < tr.length →
    VadEvent.speechEnd ∈ ((runVad vadInitial tr).2.getD i []) →
    ∀ j, j ≤ i →
      (tr.getD i (0, 0)).1 - (tr.getD j (0, 0)).1 ≤ SILENCE_DURATION →
      (tr.getD j (0, 0)).2 < SILENCE_THRESHOLD

/-- Claim C8 as stated. -/
def drishtiClaimC8 : Prop :=
  vadEntersOnUpper ∧ vadExitOnlyAfterContinuousSilence

/-- Concrete refuting trace: enter speech at 0.02; a sample 0.005 below
the lower threshold starts the silence clock at time 1000; a sample 0.012
between the two thresholds at 1500 leaves the clock running; a sample
0.005 at 2000 exits, although 0.012 was at or above the lower threshold
inside the waiting window. -/
def vadTrace : List (Nat × ℚ) :=
  [(500, 1 / 50), (1000, 1 / 200), (1500, 3 / 250), (2000, 1 / 200)]

theorem runVad_vadTrace :
    (runVad vadInitial vadTrace).2 =
      [[VadEvent.speechStart], [], [], [VadEvent.speechEnd]] := by
  have c1 : SPEECH_THRESHOLD < (1 / 50 : ℚ) := by norm_num [SPEECH_THRESHOLD]
  have s1 : vadMonitorStep vadInitial 500 (1 / 50) =
      (⟨true, 0⟩, [VadEvent.speechStart]) := by
    rw [vadMonitorStep, if_pos c1]
    rfl
  have c2a : ¬(SPEECH_THRESHOLD < (1 / 200 : ℚ)) := by
    norm_num [SPEECH_THRESHOLD]
  have c2b : (1 / 200 : ℚ) < SILENCE_THRESHOLD := by
    norm_num [SILENCE_THRESHOLD]
  have s2 : vadMonitorStep ⟨true, 0⟩ 1000 (1 / 200) = (⟨true, 1000⟩, []) := by
    rw [vadMonitorStep, if_neg c2a, if_pos ⟨c2b, rfl⟩, if_pos rfl]
  have c3a : ¬(SPEECH_THRESHOLD < (3 / 250 : ℚ)) := by
    norm_num [SPEECH_THRESHOLD]
  have c3b : ¬((3 / 250 : ℚ) < SILENCE_THRESHOLD ∧
      (⟨true, 1000⟩ : VadState).speechDetected = true) := by
    rintro ⟨hc, -⟩
    norm_num [SILENCE_THRESHOLD] at hc
  have s3 : vadMonitorStep ⟨true, 1000⟩ 1500 (3 / 250) =
      (⟨true, 1000⟩, []) := by
    rw [vadMonitorStep, if_neg c3a, if_neg c3b]
  have s4 : vadMonitorStep ⟨true, 1000⟩ 2000 (1 / 200) =
      (⟨false, 0⟩, [VadEvent.speechEnd]) := by
    rw [vadMonitorStep, if_neg c2a, if_pos ⟨c2b, rfl⟩, if_neg (by decide),
      if_pos (by decide)]
  simp only [vadTrace, runVad, s1, s2, s3, s4]

/-- C8 counterexample: the voice-activity claim fails as stated, because
a sample between the two thresholds inside the waiting window neither
resets the silence clock nor prevents the exit. -/
theorem drishti_c8_counterexample : ¬drishtiClaimC8 := by
  intro h
  have hmem : VadEvent.speechEnd ∈ ((runVad vadInitial vadTrace).2.getD 3 []) := by
    rw [runVad_vadTrace]
    simp
  have hw := h.2 vadTrace 3 (by decide) hmem 2 (by decide) (by decide)
  have hval : (vadTrace.getD 2 (0, 0)).2 = 3 / 250 := rfl
  rw [hval] at hw
  norm_num [SILENCE_THRESHOLD] at hw

/-- C8 amended.  The detector enters speech exactly on a sample above the
upper threshold while not in speech; it leaves speech exactly at a sample
below the lower threshold once more than the minimum silence duration has
elapsed since the silence clock was started; a sample between the two
thresholds leaves the state unchanged — it neither resets the clock nor
prevents the exit — and only a sample above the upper threshold resets
the clock. -/
theorem drishti_c8_vad_hysteresis :
    vadEntersOnUpper ∧
    (∀ v now rms, VadEvent.speechEnd ∈ (vadMonitorStep v now rms).2 ↔
      (v.speechDetected = true ∧ rms < SILENCE_THRESHOLD ∧
        v.silenceStart ≠ 0 ∧ SILENCE_DURATION < now - v.silenceStart)) ∧
    (∀ v now rms, ¬(SPEECH_THRESHOLD < rms) → ¬(rms < SILENCE_THRESHOLD) →
      vadMonitorStep v now rms = (v, [])) ∧
    (∀ v now rms, SPEECH_THRESHOLD < rms →
      (vadMonitorStep v now rms).1 = ⟨true, 0⟩) := by
  have hthr : SILENCE_THRESHOLD ≤ SPEECH_THRESHOLD := by
    norm_num [SILENCE_THRESHOLD, SPEECH_THRESHOLD]
  refine ⟨?_, ?_, ?_, ?_⟩
  · intro v now rms
    rw [vadMonitorStep]
    by_cases h1 : SPEECH_THRESHOLD < rms
    · rw [if_pos h1]
      cases hd : v.speechDetected <;> simp [hd, h1]
    · rw [if_neg h1]
      by_cases h2 : rms < SILENCE_THRESHOLD ∧ v.speechDetected = true
      · rw [if_pos h2]
        by_cases h3 : v.silenceStart = 0
        · rw [if_pos h3]
          simp [h1]
        · rw [if_neg h3]
          by_cases h4 : SILENCE_DURATION < now - v.silenceStart
          · rw [if_pos h4]
            simp [h1]
          · rw [if_neg h4]
            simp [h1]
      · rw [if_neg h2]
        simp [h1]
  · intro v now rms
    rw [vadMonitorStep]
    by_cases h1 : SPEECH_THRESHOLD < rms
    · rw [if_pos h1]
      have hns : ¬(rms < SILENCE_THRESHOLD) := by
        intro hc
        exact absurd (lt_trans hc (lt_of_le_of_lt hthr h1)) (lt_irrefl rms)
      cases hd : v.speechDetected <;> simp [hns]
    · rw [if_neg h1]
      by_cases h2 : rms < SILENCE_THRESHOLD ∧ v.speechDetected = true
      · rw [if_pos h2]
        by_cases h3 : v.silenceStart = 0
        · rw [if_pos h3]
          simp [h2.1, h2.2, h3]
        · rw [if_neg h3]
          by_cases h4 : SILENCE_DURATION < now - v.silenceStart
          · rw [if_pos h4]
            simp [h2.1, h2.2, h3, h4]
          · rw [if_neg h4]
            simp [h4]
      · rw [if_neg h2]
        rw [Classical.not_and_iff_or_not_not] at h2
        simp only [List.not_mem_nil, false_iff]
        rintro ⟨ha, hb, -, -⟩
        rcases h2 with h2 | h2
        · exact h2 hb
        · exact h2 ha
  · intro v now rms h1 h2
    rw [vadMonitorStep, if_neg h1,
      if_neg (by rintro ⟨hc, -⟩; exact h2 hc)]
  · intro v now rms h1
    rw [vadMonitorStep, if_pos h1]

/-- C8 amended witness: the mid-band sample of the refuting trace leaves
the state untouched, and the first sample of the trace enters speech. -/
theorem drishti_c8_vad_hysteresis_witness :
    vadMonitorStep ⟨true, 1000⟩ 1500 (3 / 250) = (⟨true, 1000⟩, []) ∧
    (vadMonitorStep vadInitial 500 (1 / 50)).1 = ⟨true, 0⟩ :=
  ⟨drishti_c8_vad_hysteresis.2.2.1 ⟨true, 1000⟩ 1500 (3 / 250)
      (by norm_num [SPEECH_THRESHOLD])
      (by norm_num [SILENCE_THRESHOLD]),
    drishti_c8_vad_hysteresis.2.2.2 vadInitial 500 (1 / 50)
      (by norm_num [SPEECH_THRESHOLD])⟩

/-!
Embedding of the conversation history of the client (`API.chatStream`):
the user turn is pushed and the history trimmed to the last `MAX_HISTORY`
entries when it exceeds the cap (`slice(-MAX_HISTORY)`); after the stream
completes, the assistant turn is pushed without a trim.
-/

def MAX_HISTORY : Nat := 20

structure ChatMessage where
  role : List Char
  content : List Char
deriving DecidableEq

/-- The user push of `chatStream` with its trim. -/
def pushUserMessage (history : List ChatMessage) (text : List Char) :
    List ChatMessage :=
  if MAX_HISTORY < (history ++ [ChatMessage.mk "user".toList text]).length then
    (history ++ [ChatMessage.mk "user".toList text]).drop
      ((history ++ [ChatMessage.mk "user".toList text]).length - MAX_HISTORY)
  else history ++ [ChatMessage.mk "user".toList text]

/-- The assistant push at the end of `chatStream`; the source performs no
trim here. -/
def pushAssistantMessage (history : List ChatMessage) (text : List Char) :
    List ChatMessage :=
  history ++ [ChatMessage.mk "assistant".toList text]

/-- One `chatStream` call: the user push always happens; the assistant
push happens only when the stream completes without throwing. -/
def chatTurn (history : List ChatMessage) (userText : List Char)
    (completed : Bool) (response : List Char) : List ChatMessage :=
  if completed then
    pushAssistantMessage (pushUserMessage history userText) response
  else pushUserMessage history userText

/-- A sequence of `chatStream` calls over the process lifetime. -/
def runTurns : List ChatMessage → List (List Char × Bool × List Char) →
    List ChatMessage
  | h, [] => h
  | h, (u, c, r) :: rest => runTurns (chatTurn h u c r) rest

/-- C9 counterexample: after eleven completed turns the history holds
`MAX_HISTORY + 1 = 21` entries, so the claim that the history never
exceeds `MAX_HISTORY` after any turn-appending operation is false. -/
theorem drishti_c9_counterexample :
    ¬(∀ ops, (runTurns [] ops).length ≤ MAX_HISTORY) := by
  intro h
  have hc := h (List.replicate 11 ("u".toList, true, "a".toList))
  have hlen : (runTurns []
      (List.replicate 11 ("u".toList, true, "a".toList))).length = 21 := by
    decide
  rw [hlen] at hc
  exact absurd hc (by decide)

/-- C9 amended.  The cap is enforced only by the user push, which trims to
the last `MAX_HISTORY` entries: after every user push the history holds at
most `MAX_HISTORY` entries, but the assistant push performs no trim, so
after a completed turn the history can hold `MAX_HISTORY + 1` entries —
and never more, over every sequence of turns from an empty history. -/
theorem drishti_c9_history_cap :
    (∀ (h : List ChatMessage) text, h.length ≤ MAX_HISTORY + 1 →
      (pushUserMessage h text).length ≤ MAX_HISTORY) ∧
    (∀ (h : List ChatMessage) u c r, h.length ≤ MAX_HISTORY + 1 →
      (chatTurn h u c r).length ≤ MAX_HISTORY + 1) ∧
    (∀ ops, (runTurns [] ops).length ≤ MAX_HISTORY + 1) := by
  have hpush : ∀ (h : List ChatMessage) text, h.length ≤ MAX_HISTORY + 1 →
      (pushUserMessage h text).length ≤ MAX_HISTORY := by
    intro h text hl
    have hlen : (h ++ [ChatMessage.mk "user".toList text]).length =
        h.length + 1 := by simp
    by_cases hc : MAX_HISTORY <
        (h ++ [ChatMessage.mk "user".toList text]).length
    · rw [pushUserMessage, if_pos hc, List.length_drop]
      omega
    · rw [pushUserMessage, if_neg hc]
      omega
  have hturn : ∀ (h : List ChatMessage) u c r, h.length ≤ MAX_HISTORY + 1 →
      (chatTurn h u c r).length ≤ MAX_HISTORY + 1 := by
    intro h u c r hl
    cases c with
    | false =>
      rw [chatTurn, if_neg (by simp)]
      have := hpush h u hl
      omega
    | true =>
      rw [chatTurn, if_pos rfl, pushAssistantMessage]
      have := hpush h u hl
      simp only [List.length_append, List.length_cons, List.length_nil]
      omega
  refine ⟨hpush, hturn, ?_⟩
  have hrun : ∀ ops (h : List ChatMessage), h.length ≤ MAX_HISTORY + 1 →
      (runTurns h ops).length ≤ MAX_HISTORY + 1 := by
    intro ops
    induction ops with
    | nil => intro h hl; exact hl
    | cons op rest ih =>
      intro h hl
      obtain ⟨u, c, r⟩ := op
      exact ih (chatTurn h u c r) (hturn h u c r hl)
  intro ops
  exact hrun ops [] (by simp)

/-- C9 amended witness: from an empty history a user push stays within the
cap, and a full completed turn stays within the cap plus one. -/
theorem drishti_c9_history_cap_witness :
    (pushUserMessage [] "hi".toList).length ≤ MAX_HISTORY ∧
    (chatTurn [] "hi".toList true "ok".toList).length ≤ MAX_HISTORY + 1 :=
  ⟨drishti_c9_history_cap.1 [] "hi".toList (by simp),
    drishti_c9_history_cap.2.1 [] "hi".toList true "ok".toList (by simp)⟩

/-!
Embedding of the `/api/tts` route handler of the server: destructure
`text` from the request body; when `text` is absent or empty or trims to
the empty string, answer HTTP 400 with the JSON error `No text provided`
before any upstream call; otherwise forward the text to the upstream
synthesis service.  A request that never reaches the upstream service is
exactly one whose outcome is `rejected`.
-/

def ttsGuardError : List Char := "No text provided".toList

inductive TtsOutcome where
  | rejected (status : Nat) (error : List Char)
  | forwarded (input : List Char)
deriving DecidableEq

def apiTtsHandler (text : Option (List Char)) : TtsOutcome :=
  match text with
  | none => TtsOutcome.rejected 400 ttsGuardError
  | some t =>
    if t = [] ∨ trimChars t = [] then TtsOutcome.rejected 400 ttsGuardError
    else TtsOutcome.forwarded t

/-- C10.  Every `/api/tts` request whose body has no text field or whose
text trims to the empty string is answered with status 400 and the error
`No text provided`, and no request is issued to the upstream synthesis
service. -/
theorem drishti_c10_tts_empty_guard (text : Option (List Char))
    (h : text = none ∨ ∃ t, text = some t ∧ trimChars t = []) :
    apiTtsHandler text = TtsOutcome.rejected 400 ttsGuardError ∧
    ∀ u, apiTtsHandler text ≠ TtsOutcome.forwarded u := by
  have hrej : apiTtsHandler text = TtsOutcome.rejected 400 ttsGuardError := by
    rcases h with h | ⟨t, ht, htrim⟩
    · rw [h]; rfl
    · rw [ht]
      show (if t = [] ∨ trimChars t = [] then
        TtsOutcome.rejected 400 ttsGuardError else TtsOutcome.forwarded t) =
        TtsOutcome.rejected 400 ttsGuardError
      rw [if_pos (Or.inr htrim)]
  refine ⟨hrej, ?_⟩
  intro u hu
  rw [hrej] at hu
  exact TtsOutcome.noConfusion hu

/-- C10 witness: a body whose text is three spaces is rejected with 400
and never forwarded upstream. -/
theorem drishti_c10_tts_empty_guard_witness :
    apiTtsHandler (some "   ".toList) =
      TtsOutcome.rejected 400 ttsGuardError ∧
    ∀ u, apiTtsHandler (some "   ".toList) ≠ TtsOutcome.forwarded u :=
  drishti_c10_tts_empty_guard (some "   ".toList)
    (Or.inr ⟨"   ".toList, rfl, by decide⟩)

/-!
Embedding of the session controller of the client (`Drishti` together
with `StateMachine`): the UI state machine, the interaction version
counter, the pipeline busy flag, and the per-turn playback queue objects.
Queue objects are kept in a map from a fresh identifier to their state;
`currentQueue` holds the identifier of the queue of the running turn.
The TTS completion handler of `stopListeningAndProcess` is embedded by
`ttsCompletion`: exactly as in the source, it receives only the sentence
index and its captured queue object — it does not receive or check the
interaction version — transitions to Speaking when the index is 0, and
enqueues into the captured queue.  The end of the pipeline is embedded by
`finishPipeline`, whose `returnToIdle` is guarded by the captured
`runVersion`; this is the only version check in the source. -/

inductive UiState where
  | idle
  | listening
  | processing
  | streaming
  | speaking
deriving DecidableEq

structure DrishtiState where
  uiState : UiState
  interactionVersion : Nat
  pipelineBusy : Bool
  currentQueue : Option Nat
  queues : List (Nat × AudioQueueManager)
  nextQueueId : Nat
deriving DecidableEq

def drishtiInitial : DrishtiState :=
  ⟨UiState.idle, 0, false, none, [], 0⟩

/-- The `StateMachine.transition` method: a change of state fires the
listeners; reentering the current state is a no-op. -/
def transition (s : DrishtiState) (n : UiState) :
    DrishtiState × List (UiState × UiState) :=
  if s.uiState = n then (s, [])
  else ({ s with uiState := n }, [(s.uiState, n)])

/-- `handlePressStart` followed by `startListening`: rejected while the
pipeline is busy; from Idle, the interaction version is incremented and
the machine moves to Listening. -/
def pressStart (s : DrishtiState) : DrishtiState × List (UiState × UiState) :=
  if s.pipelineBusy then (s, [])
  else if s.uiState = UiState.idle then
    transition { s with interactionVersion := s.interactionVersion + 1 }
      UiState.listening
  else (s, [])

/-- The opening of `stopListeningAndProcess` on a TTS-enabled turn, up to
the creation of the turn playback queue: set the busy flag, move through
Processing to Streaming, create a fresh `AudioQueueManager` and make it
the current queue. -/
def beginPipeline (s : DrishtiState) :
    DrishtiState × List (UiState × UiState) :=
  if s.uiState = UiState.listening ∧ s.pipelineBusy = false then
    let r1 := transition { s with pipelineBusy := true } UiState.processing
    let r2 := transition r1.1 UiState.streaming
    ({ r2.1 with
        queues := (r2.1.nextQueueId, AudioQueueManager.initial) :: r2.1.queues
        currentQueue := some r2.1.nextQueueId
        nextQueueId := r2.1.nextQueueId + 1 }, r1.2 ++ r2.2)
  else (s, [])

def updateQueue (l : List (Nat × AudioQueueManager)) (qid : Nat)
    (f : AudioQueueManager → AudioQueueManager) :
    List (Nat × AudioQueueManager) :=
  l.map (fun p => if p.1 = qid then (p.1, f p.2) else p)

/-- The TTS completion handler of `onSentence`: on index 0 transition to
Speaking, then enqueue the decoded buffer into the queue object captured
at dispatch.  The source performs no version check here. -/
def ttsCompletion (s : DrishtiState) (idx qid : Nat) (t d : ℚ) :
    DrishtiState × List (UiState × UiState) :=
  let r1 := if idx = 0 then transition s UiState.speaking else (s, [])
  ({ r1.1 with
      queues := updateQueue r1.1.queues qid
        (fun a => (AudioQueueManager.enqueue t idx d a).1) }, r1.2)

/-- The `finally` block of `stopListeningAndProcess`: drop the current
queue reference, clear the busy flag, and return to Idle only when the
captured `runVersion` still equals the interaction version. -/
def finishPipeline (s : DrishtiState) (runVersion : Nat) :
    DrishtiState × List (UiState × UiState) :=
  if runVersion =
      ({ s with currentQueue := none, pipelineBusy := false } :
        DrishtiState).interactionVersion then
    transition { s with currentQueue := none, pipelineBusy := false }
      UiState.idle
  else ({ s with currentQueue := none, pipelineBusy := false }, [])

inductive DrishtiEvent where
  | press
  | beginTurn
  | ttsDone (idx qid : Nat) (t d : ℚ)
  | finish (runVersion : Nat)

def drishtiStep (s : DrishtiState) :
    DrishtiEvent → DrishtiState × List (UiState × UiState)
  | .press => pressStart s
  | .beginTurn => beginPipeline s
  | .ttsDone idx qid t d => ttsCompletion s idx qid t d
  | .finish rv => finishPipeline s rv

def runDrishti : DrishtiState → List DrishtiEvent →
    DrishtiState × List (UiState × UiState)
  | s, [] => (s, [])
  | s, e :: rest =>
    let r1 := drishtiStep s e
    let r2 := runDrishti r1.1 rest
    (r2.1, r1.2 ++ r2.2)

/-- The failing trace for C1: a first turn (version 1, queue 0) dispatches
a TTS request for sentence 0 and ends through its `finally` block while
the request is still in flight; the user then starts a new Listening
phase, incrementing the version to 2. -/
def staleTrace : List DrishtiEvent :=
  [DrishtiEvent.press, DrishtiEvent.beginTurn, DrishtiEvent.finish 1,
    DrishtiEvent.press]

/-- C1.  Evaluation of the embedded client at the failing trace: the
dispatching turn ran at version 1 with queue 0; after the new Listening
phase the version is 2, yet the late TTS completion for sentence 0 of the
old turn — carrying captured version 1 and captured queue 0 — still fires
the Listening → Speaking transition, because the completion handler of
the source checks no version.  This contradicts the claim that no stale
completion fires a state-machine transition. -/
theorem drishti_c1_stale_tts_fires_transition :
    (runDrishti drishtiInitial
      [DrishtiEvent.press, DrishtiEvent.beginTurn]).1.interactionVersion
        = 1 ∧
    (runDrishti drishtiInitial
      [DrishtiEvent.press, DrishtiEvent.beginTurn]).1.currentQueue
        = some 0 ∧
    (runDrishti drishtiInitial staleTrace).1.interactionVersion = 2 ∧
    (runDrishti drishtiInitial staleTrace).1.uiState = UiState.listening ∧
    (ttsCompletion (runDrishti drishtiInitial staleTrace).1 0 0 0 1).2
        = [(UiState.listening, UiState.speaking)] := by
  refine ⟨by decide, by decide, by decide, by decide, by decide⟩
